import Mathlib

/-!
# A verification of the `audio-engine` crate's core

Shallow embedding of the crate's core components — the `Mixer`
(`src/mixer.rs`), the `SampleRateConverter` and `ChannelConverter`
(`src/converter.rs`) and the engine façade's sound-creation logic
(`src/engine.rs`) — together with theorems settling the specification
claims about them.

Machine integers are modelled as `ℤ`/`ℕ` (the Rust code's `i16`/`i32`
arithmetic never overflows at the places we model; where a cast or a
saturation matters it is written out explicitly).  The crate's `f32`
arithmetic is modelled exactly: an IEEE-754 binary32 multiplication in
the normal range is the exact rational product rounded to 24 significant
bits, round-to-nearest, ties to even; `roundF32` below implements that
rounding on `ℚ`.
-/

namespace AudioEngine

/-! ## Numeric primitives: i16 saturation, truncation, f32 rounding -/

/-- `i16::MAX`. -/
def i16Max : ℤ := 32767

/-- `i16::MIN`. -/
def i16Min : ℤ := -32768

/-- Rust's `i16::saturating_add`: clamp the exact sum into the `i16` range. -/
def satAdd (a b : ℤ) : ℤ := max i16Min (min i16Max (a + b))

/-- Truncation of a rational toward zero (what a Rust `as` cast to an
integer type does to the value of a float, before saturation). -/
def ratTrunc (q : ℚ) : ℤ := if 0 ≤ q then ⌊q⌋ else ⌈q⌉

/-- Rust's `f32 as i16` cast: truncate toward zero, saturating at the
bounds of `i16`. -/
def i16OfRat (q : ℚ) : ℤ := max i16Min (min i16Max (ratTrunc q))

/-- Round a rational to an integer, round-half-to-even (the IEEE-754
default tie-breaking rule). -/
def rhe (q : ℚ) : ℤ :=
  if q - ⌊q⌋ < 1/2 then ⌊q⌋
  else if 1/2 < q - ⌊q⌋ then ⌊q⌋ + 1
  else if Even ⌊q⌋ then ⌊q⌋ else ⌊q⌋ + 1

/-- Fuel-indexed copy of `Nat.log` (the fuel makes it reduce inside the
kernel, so that concrete instances of the claims can be settled by
`decide`); `natLogF_eq` identifies it with `Nat.log`. -/
def natLogF : ℕ → ℕ → ℕ → ℕ
  | 0, _, _ => 0
  | f + 1, b, n => if b ≤ n ∧ 1 < b then natLogF f b (n / b) + 1 else 0

/-- Fuel-indexed copy of `Nat.clog`; `natClogF_eq` identifies it with
`Nat.clog`. -/
def natClogF : ℕ → ℕ → ℕ → ℕ
  | 0, _, _ => 0
  | f + 1, b, n => if 1 < b ∧ 1 < n then natClogF f b ((n + b - 1) / b) + 1 else 0

/-- Kernel-computable version of `Int.log 2` on `ℚ` (the floor of the
base-2 logarithm, i.e. the IEEE-754 exponent of a positive rational);
`log2q_eq_log` identifies it with `Int.log 2`. -/
def log2q (q : ℚ) : ℤ :=
  if 1 ≤ q then (natLogF ⌊q⌋₊ 2 ⌊q⌋₊ : ℤ) else -(natClogF ⌈q⁻¹⌉₊ 2 ⌈q⁻¹⌉₊ : ℤ)

/-- The exact value of rounding `q` to IEEE-754 binary32 (24-bit
significand, round-to-nearest, ties to even), valid on the normal range
(no overflow/subnormal handling, which never arises at the magnitudes the
engine computes with). -/
def roundF32 (q : ℚ) : ℚ :=
  if q = 0 then 0
  else ((rhe (q * (2:ℚ) ^ ((23:ℤ) - log2q |q|)) : ℚ)) * (2:ℚ) ^ (log2q |q| - (23:ℤ))

/-- The exact value of the `f32` constant `1.0 / i16::MAX as f32`
(`1/32767` rounded to binary32): `2⁻¹⁵ + 2⁻³⁰`. -/
def nearOneEps : ℚ := 1/32768 + 1/(1073741824 : ℚ)

/-- The `Mixer`'s fast-path test `(volume - 1.0).abs() < 1.0 / i16::MAX as f32`
(mixer.rs:278).  For `volume ∈ [1/2, 2]` the `f32` subtraction is exact
(Sterbenz), and away from that range both sides of the comparison are
far from the threshold, so the test equals this exact comparison. -/
def gainNearOne (v : ℚ) : Bool := |v - 1| < nearOneEps

/-- `buf[i] as f32 * volume) as i16` (mixer.rs:284): the sample is exact
in `f32` (|i16| < 2²⁴), the product is rounded to binary32, the cast
truncates toward zero and saturates. -/
def scaledSample (v : ℚ) (x : ℤ) : ℤ := i16OfRat (roundF32 ((x : ℚ) * v))

/-! ## The Mixer's gain application (mixer.rs:278-286)

Output buffers are modelled as total maps `ℕ → ℤ`; a loop `for i in 0..len`
that updates `buffer[i]` from `buffer[i]` and `buf[i]` only is the pointwise
map below. -/

/-- The fast path `for i in 0..len { buffer[i] = buffer[i].saturating_add(buf[i]) }`
(mixer.rs:279-281). -/
def addScratch (scratch : ℕ → ℤ) (len : ℕ) (buffer : ℕ → ℤ) : ℕ → ℤ :=
  fun i => if i < len then satAdd (buffer i) (scratch i) else buffer i

/-- The scaled path
`for i in 0..len { buffer[i] = buffer[i].saturating_add((buf[i] as f32 * volume) as i16) }`
(mixer.rs:283-285). -/
def addScratchScaled (v : ℚ) (scratch : ℕ → ℤ) (len : ℕ) (buffer : ℕ → ℤ) : ℕ → ℤ :=
  fun i => if i < len then satAdd (buffer i) (scaledSample v (scratch i)) else buffer i

/-- The complete gain application step of `Mixer::write_samples`
(mixer.rs:278-286): take the fast path when the volume is within
`1.0 / i16::MAX` of unity, the scaled path otherwise. -/
def applyGain (v : ℚ) (scratch : ℕ → ℤ) (len : ℕ) (buffer : ℕ → ℤ) : ℕ → ℤ :=
  if gainNearOne v then addScratch scratch len buffer
  else addScratchScaled v scratch len buffer

/-! ## The Mixer (mixer.rs)

A child `Box<dyn SoundSource + Send>` is modelled as a deterministic
list-backed source (a sample list plus a read position) — the shape of
every concrete source in the crate (decoders and the tests' sources
produce a fixed sample sequence; `reset` rewinds to the start, and
`write_samples` copies the next `min(requested, remaining)` samples).
The mixer never consults a child's `channels()`/`sample_rate()` in the
operations modelled here, so those are not part of the child state. -/

/-- A child sound source: its full sample sequence and the read position. -/
structure SoundData where
  samples : List ℤ
  pos : ℕ
  deriving Repr, DecidableEq, Inhabited

/-- `write_samples` of a list-backed source: copy the next
`min(n, remaining)` samples and advance; a short (or empty) result is
end-of-source. -/
def soundWrite (d : SoundData) (n : ℕ) : List ℤ × SoundData :=
  let len := min n (d.samples.length - d.pos)
  ((d.samples.drop d.pos).take len, { d with pos := d.pos + len })

/-- `reset` of a list-backed source: rewind to the start. -/
def soundReset (d : SoundData) : SoundData := { d with pos := 0 }

/-- `SoundInner` (mixer.rs:13-20).  Groups are modelled by `ℕ` (the code
is generic over any `Eq + Hash` type). -/
structure SoundInner where
  id : ℕ
  data : SoundData
  volume : ℚ
  group : ℕ
  looping : Bool
  dropFlag : Bool
  deriving Repr, DecidableEq, Inhabited

/-- `SoundInner::new` (mixer.rs:22-31): volume 1.0, not looping, marked
to be removed.  The globally unique id handed out by `next_id()` is a
parameter here. -/
def SoundInner.new (id : ℕ) (group : ℕ) (data : SoundData) : SoundInner :=
  ⟨id, data, 1, group, false, true⟩

/-- `Mixer` (mixer.rs:35-41).  The `HashMap<G, f32>` of group volumes is
modelled as a total map with default 1: the only read is
`get(&group).unwrap_or(&1.0)` (mixer.rs:272-275), which cannot
distinguish an absent key from a stored 1.0. -/
structure Mixer where
  sounds : List SoundInner
  playing : ℕ
  channels : ℕ
  sampleRate : ℕ
  groupVolumes : ℕ → ℚ

/-- `Mixer::new` (mixer.rs:48-56). -/
def Mixer.new (channels sampleRate : ℕ) : Mixer :=
  ⟨[], 0, channels, sampleRate, fun _ => 1⟩

/-- `self.sounds.swap(i, j)`. -/
def listSwap (l : List SoundInner) (i j : ℕ) : List SoundInner :=
  (l.set i (l.getD j default)).set j (l.getD i default)

/-- `self.sounds.swap_remove(i)`: replace slot `i` with the last element
and shrink by one. -/
def listSwapRemove (l : List SoundInner) (i : ℕ) : List SoundInner :=
  (l.set i (l.getD (l.length - 1) default)).dropLast

/-- The id search `for i in (lo..hi).rev() { if self.sounds[i].id == id { …; break } }`
shared by all the mixer's id-keyed operations: the greatest index in
`[lo, hi)` holding `id`, if any. -/
def findTopIdx (sounds : List SoundInner) (id : ℕ) (lo : ℕ) : (hi : ℕ) → Option ℕ
  | 0 => none
  | hi + 1 =>
    if hi < lo then none
    else if (sounds.getD hi default).id = id then some hi
    else findTopIdx sounds id lo hi

/-- `Mixer::add_sound` (mixer.rs:103-108); the fresh id is a parameter. -/
def Mixer.addSound (m : Mixer) (id : ℕ) (group : ℕ) (data : SoundData) : Mixer :=
  { m with sounds := m.sounds ++ [SoundInner.new id group data] }

/-- `Mixer::play` (mixer.rs:114-122). -/
def Mixer.play (m : Mixer) (id : ℕ) : Mixer :=
  match findTopIdx m.sounds id m.playing m.sounds.length with
  | none => m
  | some i => { m with sounds := listSwap m.sounds m.playing i, playing := m.playing + 1 }

/-- `Mixer::pause` (mixer.rs:129-137). -/
def Mixer.pause (m : Mixer) (id : ℕ) : Mixer :=
  match findTopIdx m.sounds id 0 m.playing with
  | none => m
  | some i => { m with playing := m.playing - 1, sounds := listSwap m.sounds (m.playing - 1) i }

/-- `Mixer::stop` (mixer.rs:146-161), translated clause by clause:
remove or reset the located entry, then adjust the partition only under
`i < self.playing && self.playing < self.sounds.len()` (the length taken
after any removal). -/
def Mixer.stop (m : Mixer) (id : ℕ) : Mixer :=
  match findTopIdx m.sounds id 0 m.sounds.length with
  | none => m
  | some i =>
    let snd := m.sounds.getD i default
    let sounds1 :=
      if snd.dropFlag then listSwapRemove m.sounds i
      else m.sounds.set i { snd with data := soundReset snd.data }
    if i < m.playing ∧ m.playing < sounds1.length then
      { m with sounds := listSwap sounds1 (m.playing - 1) i, playing := m.playing - 1 }
    else
      { m with sounds := sounds1 }

/-- `Mixer::reset` for one id (mixer.rs:166-173). -/
def Mixer.resetSound (m : Mixer) (id : ℕ) : Mixer :=
  match findTopIdx m.sounds id 0 m.sounds.length with
  | none => m
  | some i =>
    let snd := m.sounds.getD i default
    { m with sounds := m.sounds.set i { snd with data := soundReset snd.data } }

/-- `Mixer::set_loop` (mixer.rs:180-187). -/
def Mixer.setLoop (m : Mixer) (id : ℕ) (looping : Bool) : Mixer :=
  match findTopIdx m.sounds id 0 m.sounds.length with
  | none => m
  | some i =>
    let snd := m.sounds.getD i default
    { m with sounds := m.sounds.set i { snd with looping := looping } }

/-- `Mixer::set_volume` (mixer.rs:193-200). -/
def Mixer.setVolume (m : Mixer) (id : ℕ) (volume : ℚ) : Mixer :=
  match findTopIdx m.sounds id 0 m.sounds.length with
  | none => m
  | some i =>
    let snd := m.sounds.getD i default
    { m with sounds := m.sounds.set i { snd with volume := volume } }

/-- `Mixer::set_group_volume` (mixer.rs:205-207): `HashMap::insert`. -/
def Mixer.setGroupVolume (m : Mixer) (group : ℕ) (volume : ℚ) : Mixer :=
  { m with groupVolumes := fun g => if g = group then volume else m.groupVolumes g }

/-- `Mixer::mark_to_remove` (mixer.rs:214-221). -/
def Mixer.markToRemove (m : Mixer) (id : ℕ) (dropFlag : Bool) : Mixer :=
  match findTopIdx m.sounds id 0 m.sounds.length with
  | none => m
  | some i =>
    let snd := m.sounds.getD i default
    { m with sounds := m.sounds.set i { snd with dropFlag := dropFlag } }

/-- The `SoundSource::reset` implementation of the Mixer itself
(mixer.rs:247): an empty body. -/
def Mixer.reset (m : Mixer) : Mixer := m

/-- The inner pull loop of `Mixer::write_samples` (mixer.rs:260-270):
`len += write_samples(&mut buf[len..])`; on a short read `reset()` and,
if looping, keep pulling.  The accumulated list is the prefix of the
scratch buffer written so far.  The fuel bounds the number of loop
iterations; `B + 2` is enough whenever a looping source has at least one
sample (on an empty looping source the Rust loop never terminates, which
a total model cannot express — the fuel-exhausted branch stands in for
that divergence). -/
def pullLoop (fuel : ℕ) (looping : Bool) (B : ℕ) (d : SoundData) (acc : List ℤ) :
    List ℤ × SoundData :=
  match fuel with
  | 0 => (acc, d)
  | fuel + 1 =>
    let r := soundWrite d (B - acc.length)
    let acc' := acc ++ r.1
    if acc'.length < B then
      let d' := soundReset r.2
      if looping then pullLoop fuel looping B d' acc'
      else (acc', d')
    else (acc', r.2)

/-- Pull one child into the scratch buffer (mixer.rs:260-270). -/
def pull (looping : Bool) (B : ℕ) (d : SoundData) : List ℤ × SoundData :=
  pullLoop (B + 2) looping B d []

/-- The main loop of `Mixer::write_samples` (mixer.rs:258-299),
returning the final mixer, the final output buffer, and — as an extra
observer used only to state the frame conditions, the source returning
only `buffer.len()` — the largest scratch length mixed into the buffer. -/
def Mixer.mixLoop (m : Mixer) (B : ℕ) (buffer : ℕ → ℤ) (s : ℕ) :
    Mixer × (ℕ → ℤ) × ℕ :=
  if h : s < m.playing then
    let snd := m.sounds.getD s default
    let pulled := pull snd.looping B snd.data
    let len := pulled.1.length
    let m1 : Mixer := { m with sounds := m.sounds.set s { snd with data := pulled.2 } }
    let volume := roundF32 (snd.volume * m1.groupVolumes snd.group)
    let buffer' := applyGain volume (fun i => pulled.1.getD i 0) len buffer
    if len < B then
      let m2 : Mixer := if snd.dropFlag then { m1 with sounds := listSwapRemove m1.sounds s } else m1
      let m3 : Mixer := { m2 with playing := m2.playing - 1 }
      let m4 : Mixer :=
        if 0 < m3.playing ∧ m3.playing < m3.sounds.length
        then { m3 with sounds := listSwap m3.sounds s m3.playing } else m3
      let rest := Mixer.mixLoop m4 B buffer' s
      (rest.1, rest.2.1, max len rest.2.2)
    else
      let rest := Mixer.mixLoop m1 B buffer' (s + 1)
      (rest.1, rest.2.1, max len rest.2.2)
  else (m, buffer, 0)
  termination_by m.playing - s
  decreasing_by
  · split <;> split <;> simp <;> omega
  · omega

/-- `Mixer::write_samples` (mixer.rs:249-302): zero the buffer if
nothing is playing, otherwise run the mixing loop; either way the
returned count is `buffer.len()`. -/
def Mixer.writeSamples (m : Mixer) (B : ℕ) (buffer : ℕ → ℤ) :
    Mixer × (ℕ → ℤ) × ℕ :=
  if m.playing = 0 then (m, fun i => if i < B then 0 else buffer i, B)
  else
    let r := Mixer.mixLoop m B buffer 0
    (r.1, r.2.1, B)

/-! ## Inner sources for the converters (converter.rs)

The converters wrap an arbitrary `T: SoundSource`; the wrapped source is
modelled as a state type `σ` together with the four trait operations.
`write` returns the list of samples written (a prefix of the passed
buffer) next to the new state. -/

/-- The `SoundSource` trait (lib.rs:107-125) for a state type `σ`. -/
structure SourceOps (σ : Type) where
  channels : ℕ
  sampleRate : ℕ
  reset : σ → σ
  write : σ → ℕ → List ℤ × σ

/-- A list-backed source (the shape of the crate's decoders and of the
tests' `BufferSource`); the state is the read position. -/
def listSourceOps (chans rate : ℕ) (l : List ℤ) : SourceOps ℕ where
  channels := chans
  sampleRate := rate
  reset := fun _ => 0
  write := fun pos n =>
    let k := min n (l.length - pos)
    ((l.drop pos).take k, pos + k)

/-- An inexhaustible source producing `f 0, f 1, …` (every read is full,
so it never reports end-of-source); the state is the read position. -/
def funSource (chans rate : ℕ) (f : ℕ → ℤ) : SourceOps ℕ where
  channels := chans
  sampleRate := rate
  reset := fun _ => 0
  write := fun pos n => ((List.range n).map (fun k => f (pos + k)), pos + n)

/-! ## ChannelConverter (converter.rs:241-326) -/

/-- Rust's `i32 as i16` cast: wrap to 16 bits (two's complement). -/
def i16Wrap (z : ℤ) : ℤ := (z + 32768) % 65536 - 32768

/-- Model of the inner source writing into a prefix of an output buffer:
positions below the written length take the written samples, the rest of
the buffer is untouched. -/
def overwritePrefix (buf : ℕ → ℤ) (w : List ℤ) : ℕ → ℤ :=
  fun i => if i < w.length then w.getD i 0 else buf i

/-- `out_buffer[frame_index + c] = mean for c in 0..out_channels`. -/
def writeFrame (buf : ℕ → ℤ) (start cnt : ℕ) (v : ℤ) : ℕ → ℤ :=
  fun i => if start ≤ i ∧ i < start + cnt then v else buf i

/-- The `Ordering::Less` arm's reverse in-place loop (converter.rs:284-295):
`for i in (0..k).rev() { sum += out_buffer[i]; if i % in_ch == 0 { … } }`.
`k` is the number of indices still to visit; the running `sum` is in `i32`
(exact here: at most 2¹⁶ samples of magnitude ≤ 2¹⁵). -/
def chanUpLoop (inCh outCh : ℕ) (k : ℕ) (sum : ℤ) (buf : ℕ → ℤ) : ℕ → ℤ :=
  match k with
  | 0 => buf
  | k + 1 =>
    let sum' := sum + buf k
    if k % inCh = 0 then
      chanUpLoop inCh outCh k 0
        (writeFrame buf (k / inCh * outCh) outCh (i16Wrap (Int.tdiv sum' (inCh : ℤ))))
    else chanUpLoop inCh outCh k sum' buf

/-- The `Ordering::Greater` arm's forward loop (converter.rs:310-321)
over the samples read into the internal `in_buffer`. -/
def chanDownLoop (inCh outCh : ℕ) (input : List ℤ) (i : ℕ) (sum : ℤ) (buf : ℕ → ℤ) :
    ℕ → ℤ :=
  match input with
  | [] => buf
  | x :: rest =>
    let sum' := sum + x
    if (i + 1) % inCh = 0 then
      chanDownLoop inCh outCh rest (i + 1) 0
        (writeFrame buf (i / inCh * outCh) outCh (i16Wrap (Int.tdiv sum' (inCh : ℤ))))
    else chanDownLoop inCh outCh rest (i + 1) sum' buf

/-- `ChannelConverter::write_samples` (converter.rs:271-325), returning
the final output buffer, the returned sample count and the new inner
state.  The converter's own state is just the inner state: the
`Ordering::Greater` arm's persistent `in_buffer` is only ever read on
`[0, in_len)`, the part just written by the inner source, so its stale
tail is not observable and is not modelled. -/
def ChannelConverter.writeSamples {σ : Type} (ops : SourceOps σ) (channels : ℕ) (st : σ)
    (outBuffer : ℕ → ℤ) (B : ℕ) : (ℕ → ℤ) × ℕ × σ :=
  let outCh := channels
  let inCh := ops.channels
  if inCh = outCh then
    let r := ops.write st B
    (overwritePrefix outBuffer r.1, r.1.length, r.2)
  else if inCh < outCh then
    let r := ops.write st (B / outCh * inCh)
    let inLen := r.1.length
    (chanUpLoop inCh outCh inLen 0 (overwritePrefix outBuffer r.1),
      inLen * outCh / inCh, r.2)
  else
    let r := ops.write st (B / outCh * inCh)
    let inLen := r.1.length
    (chanDownLoop inCh outCh r.1 0 0 outBuffer, inLen * outCh / inCh, r.2)

/-! ## SampleRateConverter (converter.rs:329-437) -/

/-- `div_up` (converter.rs:399-401). -/
def divUp (a b : ℕ) : ℕ := a / b + (if a % b ≠ 0 then 1 else 0)

/-- The runtime state of a `SampleRateConverter` over an inner state `σ`
(converter.rs:329-342): the carry buffer, the cached `out_len`, the
valid length `len`, the output cursor `iter` and the inner source. -/
structure SRC (σ : Type) where
  inBuffer : List ℤ
  outLen : ℕ
  len : ℕ
  iter : ℕ
  inner : σ

/-- Overwrite `l` from offset `start` with the samples of `w` (the model
of the inner source writing into `&mut l[start..]`). -/
def listOverwrite (l : List ℤ) (start : ℕ) (w : List ℤ) : List ℤ :=
  l.mapIdx fun i x => if start ≤ i ∧ i < start + w.length then w.getD (i - start) 0 else x

/-- `SampleRateConverter::reset` (converter.rs:382-388).  The `usize`
subtraction `… - channels` is `ℕ`-truncated; the code would panic (debug)
on a source yielding fewer than `channels` samples. -/
def srcReset {σ : Type} (ops : SourceOps σ) (st : SRC σ) : SRC σ :=
  let inner1 := ops.reset st.inner
  let r := ops.write inner1 st.inBuffer.length
  { st with inner := r.2,
            inBuffer := listOverwrite st.inBuffer 0 r.1,
            len := r.1.length - ops.channels,
            iter := 0 }

/-- `SampleRateConverter::new` (converter.rs:347-373): compute the cycle
lengths from `gcd(in_rate, out_rate)`, allocate the carry buffer with one
extra frame, then `reset`. -/
def srcNew {σ : Type} (ops : SourceOps σ) (outputSampleRate : ℕ) (inner : σ) : SRC σ :=
  let g := Nat.gcd ops.sampleRate outputSampleRate
  let inLen := ops.sampleRate / g * ops.channels
  let outLen := outputSampleRate / g * ops.channels
  let inBuffer := List.replicate (inLen + ops.channels) 0
  srcReset ops
    { inBuffer := inBuffer, outLen := outLen, len := inBuffer.length - 1,
      iter := outLen, inner := inner }

/-- The cycle refill (converter.rs:411-415): carry the boundary frame to
position 0, refill `in_buffer[channels..]` from the inner source, rewind
the cursor. -/
def srcRefill {σ : Type} (ops : SourceOps σ) (st : SRC σ) : SRC σ :=
  let carried := listOverwrite st.inBuffer 0 (st.inBuffer.drop st.len)
  let r := ops.write st.inner (st.inBuffer.length - ops.channels)
  { st with inBuffer := listOverwrite carried ops.channels r.1,
            len := r.1.length, iter := 0, inner := r.2 }

/-- One pass of the conversion loop (converter.rs:397-433), counted in
output frames.  `interp` abstracts the `f32` linear interpolation of one
output sample (converter.rs:419-428): its value is a function of the
current `in_buffer`, the cursor `iter` and the channel index only, and no
claim about the converter depends on the interpolated values, so the
theorems quantify over it.  An exhausted inner source ends the loop
early (`return i`), which here returns the samples produced so far. -/
def srcLoop {σ : Type} (ops : SourceOps σ) (interp : List ℤ → ℕ → ℕ → ℤ)
    (st : SRC σ) (produced : List ℤ) : ℕ → List ℤ × SRC σ
  | 0 => (produced, st)
  | frames + 1 =>
    let inLen := st.inBuffer.length - ops.channels
    let currOutLen := divUp (st.outLen * st.len) inLen / ops.channels * ops.channels
    if st.iter ≥ currOutLen ∧ st.len < inLen then (produced, st)
    else
      let st1 := if st.iter ≥ currOutLen then srcRefill ops st else st
      let vals := (List.range ops.channels).map fun c => interp st1.inBuffer st1.iter c
      srcLoop ops interp { st1 with iter := st1.iter + ops.channels } (produced ++ vals) frames

/-- `SampleRateConverter::write_samples` (converter.rs:389-436): the
equal-rate fast path delegates to the inner source; otherwise run the
conversion loop for one frame per `channels` slots of the buffer.  The
returned list is what was written into the buffer's prefix, so the Rust
return value is its length. -/
def srcWrite {σ : Type} (ops : SourceOps σ) (interp : List ℤ → ℕ → ℕ → ℤ)
    (outputSampleRate : ℕ) (st : SRC σ) (B : ℕ) : List ℤ × SRC σ :=
  if outputSampleRate = ops.sampleRate then
    let r := ops.write st.inner B
    (r.1, { st with inner := r.2 })
  else srcLoop ops interp st [] (divUp B ops.channels)

/-- The sum of input frame `f` (samples `f*ch … f*ch+ch-1`) of a sample
list — the `i32` accumulator value of the converter's averaging loops at
the end of that frame (the sum of at most 2¹⁶ samples of magnitude ≤ 2¹⁵
fits `i32`). -/
def frameSum (l : List ℤ) (f ch : ℕ) : ℤ := ((l.drop (f * ch)).take ch).sum

/-- A sequence of `write_samples` calls with the given buffer sizes
(the harness over which the no-drift claim quantifies): total number of
samples produced, and the final converter state. -/
def srcWriteSeq {σ : Type} (ops : SourceOps σ) (interp : List ℤ → ℕ → ℕ → ℤ)
    (outputSampleRate : ℕ) : SRC σ → List ℕ → ℕ × SRC σ
  | st, [] => (0, st)
  | st, B :: rest =>
    let r := srcWrite ops interp outputSampleRate st B
    let r2 := srcWriteSeq ops interp outputSampleRate r.2 rest
    (r.1.length + r2.1, r2.2)

/-- The conversion loop's invariant over an inexhaustible inner source
(state = samples read so far): the carry buffer keeps its allocated
size, `len` stays a full cycle, the cursor is frame-aligned within the
cycle, and after `T` output samples the inner source stands exactly one
cycle plus the one-frame lookahead beyond the `T/outLen` completed
cycles. -/
def srcInv (inLen outLen ch : ℕ) (st : SRC ℕ) (T : ℕ) : Prop :=
  st.inBuffer.length = inLen + ch ∧ st.outLen = outLen ∧ st.len = inLen ∧
  ch ∣ st.iter ∧ st.iter ≤ outLen ∧ (T = 0 ∨ 0 < st.iter) ∧
  ∃ q, st.inner = (q + 1) * inLen + ch ∧ T = q * outLen + st.iter

/-! ## The engine façade's sound creation (engine.rs:278-312) -/

/-- The wrapper structure chosen by `AudioEngine::new_sound_with_group`
around a new source, or the error. -/
inductive SoundWrap where
  | plain
  | rateOnly
  | chanOnly
  | rateThenChan
  | err
  deriving Repr, DecidableEq

/-- The branch structure of `AudioEngine::new_sound_with_group`
(engine.rs:285-302), deciding the wrapping from the source's and the
mixer's sample rates and channel counts. -/
def newSoundWrap (srcChannels srcRate outChannels outRate : ℕ) : SoundWrap :=
  if srcRate ≠ outRate then
    if srcChannels = outChannels then .rateOnly
    else if outChannels = 1 ∨ srcChannels = 1 then .rateThenChan
    else .err
  else if srcChannels = outChannels then .plain
  else if outChannels = 1 ∨ srcChannels = 1 then .chanOnly
  else .err

/-- Whether the chosen wrapping contains a `SampleRateConverter`. -/
def SoundWrap.hasSRC : SoundWrap → Bool
  | .rateOnly | .rateThenChan => true
  | _ => false

/-- Whether the chosen wrapping contains a `ChannelConverter`. -/
def SoundWrap.hasCC : SoundWrap → Bool
  | .chanOnly | .rateThenChan => true
  | _ => false

/-! ## Lemmas about the numeric primitives -/

theorem natLogF_eq (b : ℕ) : ∀ f n, n ≤ f → natLogF f b n = Nat.log b n := by
  intro f
  induction f with
  | zero =>
    intro n hn
    obtain rfl : n = 0 := Nat.le_zero.mp hn
    simp [natLogF]
  | succ f ih =>
    intro n hn
    show (if b ≤ n ∧ 1 < b then natLogF f b (n / b) + 1 else 0) = Nat.log b n
    by_cases h : b ≤ n ∧ 1 < b
    · have hn0 : 0 < n := lt_of_lt_of_le (Nat.lt_of_lt_of_le Nat.zero_lt_one h.2.le) h.1
      have hdiv : n / b < n := Nat.div_lt_self hn0 h.2
      rw [if_pos h, ih (n / b) (by omega), Nat.log_of_one_lt_of_le h.2 h.1]
    · rw [if_neg h]
      rcases not_and_or.mp h with h1 | h2
      · exact (Nat.log_of_lt (lt_of_not_le h1)).symm
      · exact (Nat.log_of_left_le_one (le_of_not_lt h2) n).symm

theorem natClogF_eq (b : ℕ) : ∀ f n, n ≤ f → natClogF f b n = Nat.clog b n := by
  intro f
  induction f with
  | zero =>
    intro n hn
    obtain rfl : n = 0 := Nat.le_zero.mp hn
    simp [natClogF, Nat.clog_of_right_le_one]
  | succ f ih =>
    intro n hn
    show (if 1 < b ∧ 1 < n then natClogF f b ((n + b - 1) / b) + 1 else 0) = Nat.clog b n
    by_cases h : 1 < b ∧ 1 < n
    · have hdiv : (n + b - 1) / b < n := Nat.add_pred_div_lt h.1 h.2
      rw [if_pos h, ih _ (by omega), (Nat.clog_of_two_le h.1 h.2).symm]
    · rw [if_neg h]
      rcases not_and_or.mp h with h1 | h2
      · exact (Nat.clog_of_left_le_one (le_of_not_lt h1) n).symm
      · exact (Nat.clog_of_right_le_one (le_of_not_lt h2) b).symm

theorem log2q_eq_log (q : ℚ) : log2q q = Int.log 2 q := by
  unfold log2q Int.log
  by_cases h : 1 ≤ q
  · rw [if_pos h, if_pos h, natLogF_eq 2 _ _ le_rfl]
  · rw [if_neg h, if_neg h, natClogF_eq 2 _ _ le_rfl]

/-- Lower bracket of the exponent computed by `log2q`. -/
theorem log2q_le_self {q : ℚ} (hq : 0 < q) : (2:ℚ) ^ log2q q ≤ q := by
  rw [log2q_eq_log]
  exact_mod_cast Int.zpow_log_le_self (by norm_num) hq

/-- Upper bracket of the exponent computed by `log2q`. -/
theorem lt_log2q_succ (q : ℚ) : q < (2:ℚ) ^ (log2q q + 1) := by
  rw [log2q_eq_log]
  exact_mod_cast Int.lt_zpow_succ_log_self (by norm_num) q

/-- `rhe` is sandwiched between floor and ceiling. -/
theorem floor_le_rhe (q : ℚ) : ⌊q⌋ ≤ rhe q := by
  unfold rhe
  split_ifs <;> omega

theorem rhe_le_ceil (q : ℚ) : rhe q ≤ ⌈q⌉ := by
  unfold rhe
  have hfc : ⌊q⌋ ≤ ⌈q⌉ := Int.floor_le_ceil q
  split_ifs with h1 h2 h3
  · exact hfc
  · have : ((⌊q⌋ : ℚ)) < q := by
      have := Int.floor_le q
      linarith
    have := Int.lt_ceil.mpr this
    omega
  · exact hfc
  · have : ((⌊q⌋ : ℚ)) < q := by
      have := Int.floor_le q
      linarith
    have := Int.lt_ceil.mpr this
    omega

theorem log2q_le_23 {q : ℚ} (h0 : 0 < q) (h : q < (2:ℚ) ^ (24:ℤ)) : log2q q ≤ 23 := by
  have h1 : (2:ℚ) ^ log2q q < (2:ℚ) ^ (24:ℤ) := lt_of_le_of_lt (log2q_le_self h0) h
  have := (zpow_lt_zpow_iff_right₀ (by norm_num : (1:ℚ) < 2)).mp h1
  omega

/-- If an integer is below `q`, it is below the binary32 rounding of `q`
(for `q` in the range where the significand grid is at least as fine as
the integers). -/
theorem le_roundF32 {q : ℚ} {m : ℤ} (hq : q ≠ 0) (hsmall : |q| < (2:ℚ) ^ (24:ℤ))
    (h : (m:ℚ) ≤ q) : (m:ℚ) ≤ roundF32 q := by
  have he : log2q |q| ≤ 23 := log2q_le_23 (abs_pos.mpr hq) hsmall
  unfold roundF32
  rw [if_neg hq]
  set e := log2q |q| with hedef
  set k : ℕ := ((23:ℤ) - e).toNat with hkdef
  have hk : (23:ℤ) - e = (k:ℤ) := by omega
  have hs : (2:ℚ) ^ ((23:ℤ) - e) = ((2^k : ℤ) : ℚ) := by
    rw [hk]
    push_cast
    rw [zpow_natCast]
  have hms : ((m * 2^k : ℤ) : ℚ) ≤ q * (2:ℚ) ^ ((23:ℤ) - e) := by
    rw [hs]
    push_cast
    have : (0:ℚ) < ((2:ℚ))^k := by positivity
    nlinarith
  have hfl : m * 2^k ≤ rhe (q * (2:ℚ) ^ ((23:ℤ) - e)) :=
    le_trans (Int.le_floor.mpr hms) (floor_le_rhe _)
  have hpos : (0:ℚ) < (2:ℚ) ^ (e - (23:ℤ)) := by positivity
  have : ((m * 2^k : ℤ) : ℚ) * (2:ℚ) ^ (e - (23:ℤ)) ≤
      ((rhe (q * (2:ℚ) ^ ((23:ℤ) - e)) : ℤ) : ℚ) * (2:ℚ) ^ (e - (23:ℤ)) := by
    have hcast : ((m * 2^k : ℤ) : ℚ) ≤ ((rhe (q * (2:ℚ) ^ ((23:ℤ) - e)) : ℤ) : ℚ) := by
      exact_mod_cast hfl
    nlinarith
  refine le_trans (le_of_eq ?_) this
  push_cast
  rw [mul_assoc, ← zpow_natCast (2:ℚ) k, ← zpow_add₀ (by norm_num : (2:ℚ) ≠ 0)]
  rw [show (k:ℤ) + (e - 23) = 0 by omega]
  simp

/-- If an integer is above `q`, it is above the binary32 rounding of `q`. -/
theorem roundF32_le {q : ℚ} {m : ℤ} (hq : q ≠ 0) (hsmall : |q| < (2:ℚ) ^ (24:ℤ))
    (h : q ≤ (m:ℚ)) : roundF32 q ≤ (m:ℚ) := by
  have he : log2q |q| ≤ 23 := log2q_le_23 (abs_pos.mpr hq) hsmall
  unfold roundF32
  rw [if_neg hq]
  set e := log2q |q| with hedef
  set k : ℕ := ((23:ℤ) - e).toNat with hkdef
  have hk : (23:ℤ) - e = (k:ℤ) := by omega
  have hs : (2:ℚ) ^ ((23:ℤ) - e) = ((2^k : ℤ) : ℚ) := by
    rw [hk]
    push_cast
    rw [zpow_natCast]
  have hms : q * (2:ℚ) ^ ((23:ℤ) - e) ≤ ((m * 2^k : ℤ) : ℚ) := by
    rw [hs]
    push_cast
    have : (0:ℚ) < ((2:ℚ))^k := by positivity
    nlinarith
  have hfl : rhe (q * (2:ℚ) ^ ((23:ℤ) - e)) ≤ m * 2^k :=
    le_trans (rhe_le_ceil _) (Int.ceil_le.mpr hms)
  have hpos : (0:ℚ) < (2:ℚ) ^ (e - (23:ℤ)) := by positivity
  have hmul : ((rhe (q * (2:ℚ) ^ ((23:ℤ) - e)) : ℤ) : ℚ) * (2:ℚ) ^ (e - (23:ℤ)) ≤
      ((m * 2^k : ℤ) : ℚ) * (2:ℚ) ^ (e - (23:ℤ)) := by
    have hcast : ((rhe (q * (2:ℚ) ^ ((23:ℤ) - e)) : ℤ) : ℚ) ≤ ((m * 2^k : ℤ) : ℚ) := by
      exact_mod_cast hfl
    nlinarith
  refine le_trans hmul (le_of_eq ?_)
  push_cast
  rw [mul_assoc, ← zpow_natCast (2:ℚ) k, ← zpow_add₀ (by norm_num : (2:ℚ) ≠ 0)]
  rw [show (k:ℤ) + (e - 23) = 0 by omega]
  simp

/-- Truncation toward zero maps a rational between two integers to an
integer between them. -/
theorem ratTrunc_bracket {a b : ℤ} {w : ℚ} (ha : (a:ℚ) ≤ w) (hb : w ≤ (b:ℚ)) :
    a ≤ ratTrunc w ∧ ratTrunc w ≤ b := by
  unfold ratTrunc
  split_ifs with h
  · exact ⟨Int.le_floor.mpr ha, le_trans (Int.floor_le_floor hb) (by simp)⟩
  · exact ⟨le_trans (by simp) (Int.ceil_le_ceil ha), Int.ceil_le.mpr hb⟩

/-- The scaled path's sample is within one LSB of the unscaled sample,
for any gain within `1/32768` of unity (every `f32` gain accepted by the
mixer's fast-path test `|gain - 1| < 1.0/i16::MAX` satisfies this, the
representable values near 1 being spaced `2⁻²⁴` apart). -/
theorem scaledSample_near {v : ℚ} {x : ℤ} (hv : |v - 1| ≤ 1/32768)
    (hlo : i16Min ≤ x) (hhi : x ≤ i16Max) :
    x - 1 ≤ scaledSample v x ∧ scaledSample v x ≤ x + 1 := by
  have hvlo : (32767:ℚ)/32768 ≤ v := by
    rw [abs_le] at hv
    linarith [hv.1]
  have hvhi : v ≤ (32769:ℚ)/32768 := by
    rw [abs_le] at hv
    linarith [hv.2]
  unfold scaledSample
  rcases eq_or_ne x 0 with rfl | hx0
  · have : (0:ℚ) * v = 0 := by ring
    rw [show ((0:ℤ):ℚ) = (0:ℚ) by norm_num, this]
    unfold roundF32
    rw [if_pos rfl]
    unfold i16OfRat ratTrunc i16Min i16Max
    norm_num
  · have hxlo : (-32768:ℚ) ≤ (x:ℚ) := by exact_mod_cast hlo
    have hxhi : (x:ℚ) ≤ 32767 := by exact_mod_cast hhi
    have habs : |(x:ℚ)| ≤ 32768 := by
      rw [abs_le]
      constructor <;> linarith
    have hq1 : ((x - 1 : ℤ) : ℚ) ≤ (x:ℚ) * v := by
      push_cast
      have h1 : (x:ℚ) * v - x = x * (v - 1) := by ring
      have h2 : |(x:ℚ) * (v - 1)| ≤ 32768 * (1/32768) := by
        rw [abs_mul]
        apply mul_le_mul habs hv (abs_nonneg _) (by norm_num)
      rw [abs_le] at h2
      nlinarith [h2.1]
    have hq2 : (x:ℚ) * v ≤ ((x + 1 : ℤ) : ℚ) := by
      push_cast
      have h2 : |(x:ℚ) * (v - 1)| ≤ 32768 * (1/32768) := by
        rw [abs_mul]
        apply mul_le_mul habs hv (abs_nonneg _) (by norm_num)
      rw [abs_le] at h2
      nlinarith [h2.2]
    have hqne : (x:ℚ) * v ≠ 0 := by
      apply mul_ne_zero
      · exact_mod_cast hx0
      · intro h
        rw [h] at hvlo
        norm_num at hvlo
    have hqsmall : |(x:ℚ) * v| < (2:ℚ) ^ (24:ℤ) := by
      rw [abs_mul]
      have hva : |v| ≤ 2 := by
        rw [abs_le]
        constructor <;> linarith
      calc |(x:ℚ)| * |v| ≤ 32768 * 2 := by
            apply mul_le_mul habs hva (abs_nonneg _) (by norm_num)
        _ < (2:ℚ) ^ (24:ℤ) := by norm_num
    have hr1 : ((x - 1 : ℤ) : ℚ) ≤ roundF32 ((x:ℚ) * v) := le_roundF32 hqne hqsmall hq1
    have hr2 : roundF32 ((x:ℚ) * v) ≤ ((x + 1 : ℤ) : ℚ) := roundF32_le hqne hqsmall hq2
    have ht := ratTrunc_bracket hr1 hr2
    unfold i16OfRat i16Min i16Max at *
    omega

/-- `saturating_add` moves by at most the change in its second argument. -/
theorem satAdd_lipschitz (p a b : ℤ) : |satAdd p a - satAdd p b| ≤ |a - b| := by
  unfold satAdd i16Min i16Max
  rcases abs_cases (a - b) with ⟨h1, h2⟩ | ⟨h1, h2⟩ <;>
    rcases abs_cases (satAdd p a - satAdd p b) with ⟨g1, g2⟩ | ⟨g1, g2⟩ <;>
    unfold satAdd i16Min i16Max at * <;> omega

/-! ## Lemmas about the Mixer's mixing loop -/

/-- Positions at or beyond the scratch length are untouched by the gain
application. -/
theorem applyGain_of_le {v : ℚ} {scratch : ℕ → ℤ} {len : ℕ} {buffer : ℕ → ℤ} {i : ℕ}
    (h : len ≤ i) : applyGain v scratch len buffer i = buffer i := by
  have hni : ¬ i < len := by omega
  unfold applyGain addScratch addScratchScaled
  split_ifs <;> simp [hni]

/-- Every position of the gain application is either untouched or a
single saturating addition onto the prior value. -/
theorem applyGain_shape (v : ℚ) (scratch : ℕ → ℤ) (len : ℕ) (buffer : ℕ → ℤ) (i : ℕ) :
    applyGain v scratch len buffer i = buffer i ∨
      ∃ x, applyGain v scratch len buffer i = satAdd (buffer i) x := by
  unfold applyGain addScratch addScratchScaled
  by_cases hi : i < len
  · split_ifs
    · exact Or.inr ⟨scratch i, by simp [hi]⟩
    · exact Or.inr ⟨scaledSample v (scratch i), by simp [hi]⟩
  · split_ifs <;> exact Or.inl (by simp [hi])

/-- Frame property of the mixing loop: any buffer position at or beyond
every mixed scratch length (the loop's `max` observer) keeps its prior
value. -/
theorem mixLoop_frame (m : Mixer) (B : ℕ) (buffer : ℕ → ℤ) (s : ℕ) :
    ∀ i, (m.mixLoop B buffer s).2.2 ≤ i → (m.mixLoop B buffer s).2.1 i = buffer i := by
  induction m, B, buffer, s using Mixer.mixLoop.induct with
  | case1 m B buffer s hs snd pulled len m1 volume buffer1 hlen m2 m3 m4 ih =>
      intro i hi
      rw [Mixer.mixLoop] at hi ⊢
      simp only [dif_pos hs, if_pos hlen] at hi ⊢
      simp only [max_le_iff] at hi
      exact (ih i hi.2).trans (applyGain_of_le hi.1)
  | case2 m B buffer s hs snd pulled len m1 volume buffer1 hlen ih =>
      intro i hi
      rw [Mixer.mixLoop] at hi ⊢
      simp only [dif_pos hs, if_neg hlen] at hi ⊢
      simp only [max_le_iff] at hi
      exact (ih i hi.2).trans (applyGain_of_le hi.1)
  | case3 m B buffer s hs =>
      intro i hi
      rw [Mixer.mixLoop] at hi ⊢
      simp only [dif_neg hs] at hi ⊢

/-- Every cell of the mixing loop's output is a fold of saturating
additions over the cell's prior value (the loop never clears the
buffer). -/
theorem mixLoop_foldl (m : Mixer) (B : ℕ) (buffer : ℕ → ℤ) (s : ℕ) :
    ∀ i, ∃ vals : List ℤ, (m.mixLoop B buffer s).2.1 i = vals.foldl satAdd (buffer i) := by
  induction m, B, buffer, s using Mixer.mixLoop.induct with
  | case1 m B buffer s hs snd pulled len m1 volume buffer1 hlen m2 m3 m4 ih =>
      intro i
      rw [Mixer.mixLoop]
      simp only [dif_pos hs, if_pos hlen]
      obtain ⟨vals, hv⟩ := ih i
      rcases applyGain_shape volume (fun j => pulled.1.getD j 0) len buffer i with he | ⟨x, hx⟩
      · refine ⟨vals, ?_⟩
        rw [show buffer1 i = buffer i from he] at hv
        exact hv
      · refine ⟨x :: vals, ?_⟩
        rw [List.foldl_cons]
        rw [show buffer1 i = satAdd (buffer i) x from hx] at hv
        exact hv
  | case2 m B buffer s hs snd pulled len m1 volume buffer1 hlen ih =>
      intro i
      rw [Mixer.mixLoop]
      simp only [dif_pos hs, if_neg hlen]
      obtain ⟨vals, hv⟩ := ih i
      rcases applyGain_shape volume (fun j => pulled.1.getD j 0) len buffer i with he | ⟨x, hx⟩
      · refine ⟨vals, ?_⟩
        rw [show buffer1 i = buffer i from he] at hv
        exact hv
      · refine ⟨x :: vals, ?_⟩
        rw [List.foldl_cons]
        rw [show buffer1 i = satAdd (buffer i) x from hx] at hv
        exact hv
  | case3 m B buffer s hs =>
      intro i
      refine ⟨[], ?_⟩
      rw [Mixer.mixLoop]
      simp only [dif_neg hs, List.foldl_nil]

/-! ## The claims -/

/-- C10.  The Mixer's own `SoundSource::reset` (mixer.rs:247) is a
no-op: it leaves the entries, the partition index, the configuration and
the group volumes — the whole state, every child source included —
unchanged. -/
theorem mixer_reset_is_noop (m : Mixer) : m.reset = m := rfl

/-- C1.  The partition invariant `playing ≤ entries.len()` does NOT
survive every public operation: starting from a new Mixer, `add_sound`
(whose `remove_on_end` defaults to true), `play`, then `stop` of that
single playing sound leaves `playing = 1` with an empty entry list,
because `stop` removes the entry but its guard
`i < playing && playing < sounds.len()` (mixer.rs:154) fails to
decrement `playing` once the removal has made `playing = sounds.len()`.
(The next `write_samples` would then index `sounds[0]` out of bounds.) -/
theorem stop_breaks_partition_invariant :
    ((((Mixer.new 1 1).addSound 7 0 ⟨[5, 5], 0⟩).play 7).playing = 1 ∧
      (((Mixer.new 1 1).addSound 7 0 ⟨[5, 5], 0⟩).play 7).sounds.length = 1) ∧
    ((((Mixer.new 1 1).addSound 7 0 ⟨[5, 5], 0⟩).play 7).stop 7).playing = 1 ∧
    ((((Mixer.new 1 1).addSound 7 0 ⟨[5, 5], 0⟩).play 7).stop 7).sounds.length = 0 := by
  with_unfolding_all decide

/-- C4.  `stop` of a playing entry whose `remove_on_end` is false does
NOT always move it to the paused partition: when every entry is playing
(`playing = sounds.len()`), the guard at mixer.rs:154 fails, so the
entry's source is reset but the entry stays in the playing partition —
against both the claim and the method's own doc comment ("If the sound
is playing, it will pause and reset the song"). -/
theorem stop_leaves_last_playing_sound_playing :
    (((((Mixer.new 1 1).addSound 7 0 ⟨[5, 5], 3⟩).markToRemove 7 false).play 7).playing = 1) ∧
    (((((Mixer.new 1 1).addSound 7 0 ⟨[5, 5], 3⟩).markToRemove 7 false).play 7).stop 7).playing = 1 ∧
    (((((Mixer.new 1 1).addSound 7 0 ⟨[5, 5], 3⟩).markToRemove 7 false).play 7).stop 7).sounds.length = 1 ∧
    ((((((Mixer.new 1 1).addSound 7 0 ⟨[5, 5], 3⟩).markToRemove 7 false).play 7).stop 7).sounds.getD 0
        default).id = 7 ∧
    ((((((Mixer.new 1 1).addSound 7 0 ⟨[5, 5], 3⟩).markToRemove 7 false).play 7).stop 7).sounds.getD 0
        default).data.pos = 0 := by
  with_unfolding_all decide

/-- C8.  `Mixer::write_samples` always reports `buffer.len()` samples
written (it never signals end-of-source to the device), and when no
sound is playing it zeroes the whole buffer.  The two hypotheses mark
the boundary of the total model's faithfulness: on states with
`playing > sounds.len()` the Rust code panics instead of returning (see
C1), and on an empty looping sound its pull loop never terminates. -/
theorem write_samples_returns_full_length (m : Mixer) (B : ℕ) (buffer : ℕ → ℤ)
    (hwf : m.playing ≤ m.sounds.length)
    (hne : ∀ e ∈ m.sounds, e.looping = true → e.data.samples ≠ []) :
    (m.writeSamples B buffer).2.2 = B ∧
      (m.playing = 0 → ∀ i, i < B → (m.writeSamples B buffer).2.1 i = 0) := by
  unfold Mixer.writeSamples
  by_cases hp : m.playing = 0
  · rw [if_pos hp]
    refine ⟨rfl, fun _ i hi => ?_⟩
    simp [hi]
  · rw [if_neg hp]
    exact ⟨rfl, fun h => absurd h hp⟩

/-- Witness for C8 at a concrete mixer (one playing two-sample sound,
buffer of four, prior contents 9). -/
theorem write_samples_returns_full_length_witness :
    ((((Mixer.new 1 1).addSound 0 0 ⟨[2, 2], 0⟩).play 0).playing ≤
        (((Mixer.new 1 1).addSound 0 0 ⟨[2, 2], 0⟩).play 0).sounds.length) ∧
    (((((Mixer.new 1 1).addSound 0 0 ⟨[2, 2], 0⟩).play 0).writeSamples 4 (fun _ => 9)).2.2 = 4 ∧
      ((((Mixer.new 1 1).addSound 0 0 ⟨[2, 2], 0⟩).play 0).playing = 0 →
        ∀ i, i < 4 →
          ((((Mixer.new 1 1).addSound 0 0 ⟨[2, 2], 0⟩).play 0).writeSamples 4
              (fun _ => 9)).2.1 i = 0)) :=
  ⟨by with_unfolding_all decide,
    write_samples_returns_full_length _ 4 (fun _ => 9) (by with_unfolding_all decide)
      (by with_unfolding_all decide)⟩

/-- C9.  When something is playing, `write_samples` does not clear the
buffer: every cell of the result is a fold of saturating additions of
(scaled) source samples onto the cell's prior value, and any cell at or
beyond every pulled source's written length — the mixing loop's `max`
observer — keeps exactly its prior value.  Hypotheses as for C8. -/
theorem write_samples_mixes_onto_prior_buffer (m : Mixer) (B : ℕ) (buffer : ℕ → ℤ)
    (hp : 0 < m.playing)
    (hwf : m.playing ≤ m.sounds.length)
    (hne : ∀ e ∈ m.sounds, e.looping = true → e.data.samples ≠ []) :
    (∀ i, (m.mixLoop B buffer 0).2.2 ≤ i → (m.writeSamples B buffer).2.1 i = buffer i) ∧
      (∀ i, ∃ vals : List ℤ, (m.writeSamples B buffer).2.1 i = vals.foldl satAdd (buffer i)) := by
  unfold Mixer.writeSamples
  rw [if_neg (by omega)]
  exact ⟨fun i hi => mixLoop_frame m B buffer 0 i hi, fun i => mixLoop_foldl m B buffer 0 i⟩

/-- Witness for C9: one playing sound of two samples into a buffer of
four with prior contents 9; positions 2 and 3 keep the 9. -/
theorem write_samples_mixes_onto_prior_buffer_witness :
    (0 < (((Mixer.new 1 1).addSound 0 0 ⟨[2, 2], 0⟩).play 0).playing) ∧
    ((∀ i, ((((Mixer.new 1 1).addSound 0 0 ⟨[2, 2], 0⟩).play 0).mixLoop 4 (fun _ => 9) 0).2.2 ≤ i →
        ((((Mixer.new 1 1).addSound 0 0 ⟨[2, 2], 0⟩).play 0).writeSamples 4
            (fun _ => 9)).2.1 i = (fun _ => (9:ℤ)) i) ∧
      (∀ i, ∃ vals : List ℤ,
        ((((Mixer.new 1 1).addSound 0 0 ⟨[2, 2], 0⟩).play 0).writeSamples 4
            (fun _ => 9)).2.1 i = vals.foldl satAdd ((fun _ => (9:ℤ)) i))) :=
  ⟨by with_unfolding_all decide,
    write_samples_mixes_onto_prior_buffer _ 4 (fun _ => 9) (by with_unfolding_all decide)
      (by with_unfolding_all decide) (by with_unfolding_all decide)⟩

/-- C5 counterexample.  The fast add path is NOT sample-for-sample
identical to the scaled path for every gain within `1/i16::MAX` of 1:
at gain `1 - 2⁻¹⁶` (which is within the band, and which the code's own
fast-path test accepts) a scratch sample 32767 over a zero buffer gives
32767 on the fast path but 32766 on the scaled path (the `f32` product
rounds to 32766.5 and the cast truncates). -/
theorem fast_path_differs_from_scaled_path :
    |((65535:ℚ)/65536) - 1| < 1/32767 ∧
    gainNearOne ((65535:ℚ)/65536) = true ∧
    addScratch (fun _ => 32767) 1 (fun _ => 0) 0 = 32767 ∧
    addScratchScaled ((65535:ℚ)/65536) (fun _ => 32767) 1 (fun _ => 0) 0 = 32766 ∧
    addScratch (fun _ => 32767) 1 (fun _ => 0) 0 ≠
      addScratchScaled ((65535:ℚ)/65536) (fun _ => 32767) 1 (fun _ => 0) 0 := by
  with_unfolding_all decide

/-- C5 (amended).  For every gain within `1/32768` of 1 — which covers
every `f32` gain accepted by the fast-path test, the representable
values around 1 being spaced `2⁻²⁴` apart — the fast path agrees with
the scaled path to within one least-significant bit at every buffer
position, for every scratch content (in `i16` range) and every prior
buffer content. -/
theorem fast_path_within_one_lsb (v : ℚ) (scratch : ℕ → ℤ) (len : ℕ) (buffer : ℕ → ℤ)
    (i : ℕ) (hv : |v - 1| ≤ 1/32768)
    (hscr : ∀ j, i16Min ≤ scratch j ∧ scratch j ≤ i16Max) :
    |addScratch scratch len buffer i - addScratchScaled v scratch len buffer i| ≤ 1 := by
  unfold addScratch addScratchScaled
  by_cases hi : i < len
  · simp only [if_pos hi]
    have hlip := satAdd_lipschitz (buffer i) (scratch i) (scaledSample v (scratch i))
    have hnear := scaledSample_near hv (hscr i).1 (hscr i).2
    have habs : |scratch i - scaledSample v (scratch i)| ≤ 1 := by
      rw [abs_le]
      omega
    exact le_trans hlip habs
  · simp [hi]

/-- Witness for C5's amended theorem at gain 1, scratch 1000, prior 7. -/
theorem fast_path_within_one_lsb_witness :
    (|(1:ℚ) - 1| ≤ 1/32768) ∧
    |addScratch (fun _ => 1000) 1 (fun _ => 7) 0 -
        addScratchScaled 1 (fun _ => 1000) 1 (fun _ => 7) 0| ≤ 1 :=
  ⟨by with_unfolding_all decide,
    fast_path_within_one_lsb 1 (fun _ => 1000) 1 (fun _ => 7) 0
      (by with_unfolding_all decide) (fun _ => ⟨by norm_num [i16Min], by norm_num [i16Max]⟩)⟩

/-- C7.  `new_sound_with_group` errs exactly when the source's channel
count differs from the output's and neither is 1; in every non-error
case it wraps with a `SampleRateConverter` exactly when the sample rates
differ and with a `ChannelConverter` exactly when the channel counts
differ. -/
theorem new_sound_error_iff_incompatible_channels
    (srcChannels srcRate outChannels outRate : ℕ) :
    (newSoundWrap srcChannels srcRate outChannels outRate = .err ↔
      (srcChannels ≠ outChannels ∧ srcChannels ≠ 1 ∧ outChannels ≠ 1)) ∧
    (newSoundWrap srcChannels srcRate outChannels outRate ≠ .err →
      ((newSoundWrap srcChannels srcRate outChannels outRate).hasSRC = true ↔ srcRate ≠ outRate) ∧
      ((newSoundWrap srcChannels srcRate outChannels outRate).hasCC = true ↔
        srcChannels ≠ outChannels)) := by
  unfold newSoundWrap
  split_ifs <;>
    simp_all [SoundWrap.hasSRC, SoundWrap.hasCC] <;>
    tauto

/-- C2.  With equal input and output rates the `SampleRateConverter` is
NOT transparent: `new` runs `reset` (converter.rs:370), which prefetches
`in_len + channels = 2 * channels` samples from the inner source into
the carry buffer, and the equal-rate fast path of `write_samples`
(converter.rs:392-394) then delegates straight to the inner source,
never reading that buffer — the first `2 * channels` samples are
silently dropped.  Over the mono source `[1, 2, 3]` at 44100 Hz, the
converter built for 44100 Hz stands at inner position 2, and its first
one-sample read yields `[3]` where the unwrapped source yields `[1]`. -/
theorem equal_rate_converter_drops_first_samples :
    (srcNew (listSourceOps 1 44100 [1, 2, 3]) 44100 0).inner = 2 ∧
    (srcWrite (listSourceOps 1 44100 [1, 2, 3]) (fun _ _ _ => 0) 44100
        (srcNew (listSourceOps 1 44100 [1, 2, 3]) 44100 0) 1).1 = [3] ∧
    ((listSourceOps 1 44100 [1, 2, 3]).write 0 1).1 = [1] ∧
    (srcWrite (listSourceOps 1 44100 [1, 2, 3]) (fun _ _ _ => 0) 44100
        (srcNew (listSourceOps 1 44100 [1, 2, 3]) 44100 0) 1).1 ≠
      ((listSourceOps 1 44100 [1, 2, 3]).write 0 1).1 := by
  with_unfolding_all decide

/-! ## Lemmas about the ChannelConverter's averaging loops -/

/-- A contiguous slice sum as an indexed sum of `getD` reads. -/
theorem slice_sum_eq_range_sum (l : List ℤ) :
    ∀ (t start : ℕ), start + t ≤ l.length →
      ((l.drop start).take t).sum = ∑ j ∈ Finset.range t, l.getD (start + j) 0 := by
  intro t
  induction t with
  | zero => intro start _; simp
  | succ t ih =>
    intro start hlen
    have hs : start < l.length := by omega
    rw [List.drop_eq_getElem_cons hs, List.take_succ_cons, List.sum_cons,
      ih (start + 1) (by omega), Finset.sum_range_succ']
    have h2 : ∀ j ∈ Finset.range t, l.getD (start + 1 + j) 0 = l.getD (start + (j + 1)) 0 := by
      intro j _
      rw [show start + 1 + j = start + (j + 1) from by omega]
    rw [Finset.sum_congr rfl h2, Nat.add_zero, List.getD_eq_getElem l 0 hs]
    exact add_comm _ _

/-- One frame of the forward (downmix) loop: consuming the remaining
`ch - j` samples of the current frame accumulates their sum and writes
the frame's mean, then processing continues at the next frame boundary. -/
theorem chanDownLoop_within (ch outCh : ℕ) :
    ∀ (x rest : List ℤ) (k j : ℕ) (sum : ℤ) (buf : ℕ → ℤ),
      x ≠ [] → j + x.length = ch →
      chanDownLoop ch outCh (x ++ rest) (k * ch + j) sum buf =
        chanDownLoop ch outCh rest ((k + 1) * ch) 0
          (writeFrame buf (k * outCh) outCh (i16Wrap (Int.tdiv (sum + x.sum) (ch : ℤ)))) := by
  intro x
  induction x with
  | nil => intro rest k j sum buf hne _; exact absurd rfl hne
  | cons y x ih =>
    intro rest k j sum buf _ hlen
    simp only [List.cons_append, chanDownLoop]
    rcases eq_or_ne x [] with rfl | hxne
    · have hj : j + 1 = ch := by simpa using hlen
      have hmod : (k * ch + j + 1) % ch = 0 := by
        rw [show k * ch + j + 1 = (k + 1) * ch by rw [Nat.add_mul, Nat.one_mul]; omega]
        simp [Nat.mul_mod_left]
      rw [if_pos hmod]
      have hdivk : (k * ch + j) / ch = k := by
        rw [Nat.add_comm, Nat.add_mul_div_right j k (by omega : 0 < ch),
          Nat.div_eq_of_lt (by omega : j < ch)]
        omega
      rw [hdivk]
      rw [show k * ch + j + 1 = (k + 1) * ch by rw [Nat.add_mul, Nat.one_mul]; omega]
      simp
    · have hxlen : 1 ≤ x.length := List.length_pos.mpr hxne
      have hj1 : j + 1 < ch := by
        have := hlen
        simp at this
        omega
      have hmod : (k * ch + j + 1) % ch ≠ 0 := by
        rw [show k * ch + j + 1 = (j + 1) + ch * k by ring]
        rw [Nat.add_mul_mod_self_left]
        rw [Nat.mod_eq_of_lt hj1]
        omega
      rw [if_neg hmod]
      rw [show k * ch + j + 1 = k * ch + (j + 1) by omega, List.append_eq]
      rw [ih rest k (j + 1) (sum + y) buf hxne (by simp at hlen ⊢; omega)]
      rw [List.sum_cons]
      ring_nf


/-- Positions outside the written frame are untouched. -/
theorem writeFrame_of_notin {buf : ℕ → ℤ} {start cnt : ℕ} {v : ℤ} {p : ℕ}
    (h : p < start ∨ start + cnt ≤ p) : writeFrame buf start cnt v p = buf p := by
  unfold writeFrame
  rcases h with h | h <;> rw [if_neg (by omega)]

/-- Positions inside the written frame take the written value. -/
theorem writeFrame_of_in {buf : ℕ → ℤ} {start cnt : ℕ} {v : ℤ} {p : ℕ}
    (h1 : start ≤ p) (h2 : p < start + cnt) : writeFrame buf start cnt v p = v := by
  unfold writeFrame
  rw [if_pos ⟨h1, h2⟩]


/-- The forward (downmix) loop over `q` whole input frames starting at
frame `k`: every output frame gets the wrapped truncated mean of its
input frame, and everything outside the produced region is untouched. -/
theorem chanDownLoop_spec (ch outCh : ℕ) (hch : 0 < ch) :
    ∀ (q : ℕ) (l : List ℤ), l.length = ch * q → ∀ (k : ℕ) (buf : ℕ → ℤ),
      (∀ f, f < q → ∀ c, c < outCh →
        chanDownLoop ch outCh l (k * ch) 0 buf ((k + f) * outCh + c) =
          i16Wrap (Int.tdiv (frameSum l f ch) (ch : ℤ))) ∧
      (∀ p, p < k * outCh ∨ (k + q) * outCh ≤ p →
        chanDownLoop ch outCh l (k * ch) 0 buf p = buf p) := by
  intro q
  induction q with
  | zero =>
    intro l hlen k buf
    obtain rfl : l = [] := List.length_eq_zero.mp (by omega)
    exact ⟨fun f hf => absurd hf (by omega), fun p _ => by simp [chanDownLoop]⟩
  | succ q ihq =>
    intro l hlen k buf
    obtain ⟨x, rest, rfl, hxlen, hrest⟩ :
        ∃ x rest, l = x ++ rest ∧ x.length = ch ∧ rest.length = ch * q := by
      refine ⟨l.take ch, l.drop ch, (List.take_append_drop ch l).symm, ?_, ?_⟩
      · rw [List.length_take]
        have : ch ≤ l.length := by
          rw [hlen, Nat.mul_succ]
          omega
        omega
      · rw [List.length_drop, hlen, Nat.mul_succ]
        omega
    have hxne : x ≠ [] := by
      intro h
      rw [h] at hxlen
      simp at hxlen
      omega
    have hstep := chanDownLoop_within ch outCh x rest k 0 0 buf hxne (by omega)
    rw [show k * ch + 0 = k * ch from rfl] at hstep
    rw [hstep]
    set w := i16Wrap (Int.tdiv ((0:ℤ) + x.sum) (ch : ℤ)) with hw
    have hih := ihq rest hrest (k + 1) (writeFrame buf (k * outCh) outCh w)
    constructor
    · intro f hf c hc
      rcases Nat.eq_zero_or_pos f with rfl | hfpos
      · rw [hih.2 ((k + 0) * outCh + c) (Or.inl (by
          rw [Nat.add_zero]
          have : (k + 1) * outCh = k * outCh + outCh := by ring
          omega))]
        rw [Nat.add_zero]
        rw [writeFrame_of_in (Nat.le_add_right _ _) (by omega)]
        rw [hw]
        unfold frameSum
        rw [Nat.zero_mul, List.drop_zero, List.take_append_of_le_length (by omega),
          ← hxlen, List.take_length, zero_add]
      · have := hih.1 (f - 1) (by omega) c hc
        rw [show (k + 1) + (f - 1) = k + f by omega] at this
        rw [this]
        congr 2
        unfold frameSum
        rw [show f * ch = x.length + (f - 1) * ch by
          rw [hxlen, Nat.sub_mul, Nat.one_mul]
          have : ch ≤ f * ch := Nat.le_mul_of_pos_left ch hfpos
          omega]
        rw [List.drop_append]
    · intro p hp
      have houtmono : k * outCh ≤ (k + 1) * outCh := by
        have : (k + 1) * outCh = k * outCh + outCh := by ring
        omega
      rcases hp with hp | hp
      · rw [hih.2 p (Or.inl (by omega))]
        exact writeFrame_of_notin (Or.inl hp)
      · have hq1 : (k + 1 + q) * outCh = (k + (q + 1)) * outCh := by ring_nf
        rw [hih.2 p (Or.inr (by omega))]
        refine writeFrame_of_notin (Or.inr ?_)
        have : (k + (q + 1)) * outCh = k * outCh + outCh + q * outCh := by ring
        omega


/-- One frame of the reverse (upmix) loop: the `t` samples below the
cursor of the current frame are summed (the loop reads them from the
buffer itself) and the frame's mean is broadcast. -/
theorem chanUpLoop_within (ch outCh : ℕ) (hch : 0 < ch) (m : ℕ) :
    ∀ (t : ℕ) (sum : ℤ) (buf : ℕ → ℤ), 0 < t → t ≤ ch →
      chanUpLoop ch outCh (m * ch + t) sum buf =
        chanUpLoop ch outCh (m * ch) 0
          (writeFrame buf (m * outCh) outCh
            (i16Wrap (Int.tdiv (sum + ∑ j ∈ Finset.range t, buf (m * ch + j)) (ch : ℤ)))) := by
  intro t
  induction t with
  | zero => intro sum buf h0 _; omega
  | succ t iht =>
    intro sum buf _ htc
    rcases Nat.eq_zero_or_pos t with rfl | htpos
    · show chanUpLoop ch outCh (m * ch + 0 + 1) sum buf = _
      simp only [chanUpLoop]
      have hmod : m * ch % ch = 0 := Nat.mul_mod_left m ch
      rw [if_pos hmod, Nat.mul_div_cancel _ hch]
      simp
    · show chanUpLoop ch outCh ((m * ch + t) + 1) sum buf = _
      simp only [chanUpLoop]
      have hmod : (m * ch + t) % ch ≠ 0 := by
        rw [show m * ch + t = t + ch * m by ring, Nat.add_mul_mod_self_left,
          Nat.mod_eq_of_lt (by omega)]
        omega
      rw [if_neg hmod]
      rw [iht (sum + buf (m * ch + t)) buf htpos (by omega)]
      rw [Finset.sum_range_succ]
      have hX : sum + buf (m * ch + t) + ∑ j ∈ Finset.range t, buf (m * ch + j) =
          sum + (∑ j ∈ Finset.range t, buf (m * ch + j) + buf (m * ch + t)) := by ring
      rw [hX]

/-- The reverse in-place (upmix) loop over `m` whole frames: provided the
buffer still holds the input list `l` below the cursor, every output
frame gets the wrapped truncated mean of its input frame, and positions
at or beyond the produced region are untouched.  (The writes of frame `f`
land at `f*outCh + c ≥ f*ch`, which is why the not-yet-read input below
the cursor survives — the in-place trick of converter.rs:278-297.) -/
theorem chanUpLoop_spec (ch outCh : ℕ) (hch : 0 < ch) (hlt : ch < outCh) (l : List ℤ) :
    ∀ (m : ℕ) (buf : ℕ → ℤ), m * ch ≤ l.length →
      (∀ p, p < m * ch → buf p = l.getD p 0) →
      (∀ f, f < m → ∀ c, c < outCh →
        chanUpLoop ch outCh (m * ch) 0 buf (f * outCh + c) =
          i16Wrap (Int.tdiv (frameSum l f ch) (ch : ℤ))) ∧
      (∀ p, m * outCh ≤ p → chanUpLoop ch outCh (m * ch) 0 buf p = buf p) := by
  intro m
  induction m with
  | zero =>
    intro buf _ _
    exact ⟨fun f hf => absurd hf (by omega), fun p _ => by simp [chanUpLoop]⟩
  | succ m ihm =>
    intro buf hlen hagree
    have hstep : chanUpLoop ch outCh ((m + 1) * ch) 0 buf =
        chanUpLoop ch outCh (m * ch) 0
          (writeFrame buf (m * outCh) outCh
            (i16Wrap (Int.tdiv ((0:ℤ) + ∑ j ∈ Finset.range ch, buf (m * ch + j)) (ch : ℤ)))) := by
      rw [show (m + 1) * ch = m * ch + ch by ring]
      exact chanUpLoop_within ch outCh hch m ch 0 buf hch le_rfl
    have hsum : ∑ j ∈ Finset.range ch, buf (m * ch + j) = frameSum l m ch := by
      have h1 : ∀ j ∈ Finset.range ch, buf (m * ch + j) = l.getD (m * ch + j) 0 := by
        intro j hj
        simp only [Finset.mem_range] at hj
        refine hagree _ ?_
        have : (m + 1) * ch = m * ch + ch := by ring
        omega
      rw [Finset.sum_congr rfl h1]
      unfold frameSum
      rw [slice_sum_eq_range_sum l ch (m * ch) (by
        have : (m + 1) * ch = m * ch + ch := by ring
        omega)]
    rw [hstep]
    set w := i16Wrap (Int.tdiv ((0:ℤ) + ∑ j ∈ Finset.range ch, buf (m * ch + j)) (ch : ℤ)) with hw
    have hchm : m * ch ≤ m * outCh := Nat.mul_le_mul_left m (by omega)
    have hih := ihm (writeFrame buf (m * outCh) outCh w)
      (by
        have : (m + 1) * ch = m * ch + ch := by ring
        omega)
      (by
        intro p hp
        rw [writeFrame_of_notin (Or.inl (by omega))]
        refine hagree p ?_
        have : (m + 1) * ch = m * ch + ch := by ring
        omega)
    constructor
    · intro f hf c hc
      rcases Nat.lt_succ_iff_lt_or_eq.mp hf with hf | rfl
      · exact hih.1 f hf c hc
      · rw [hih.2 (f * outCh + c) (Nat.le_add_right _ _)]
        rw [writeFrame_of_in (Nat.le_add_right _ _) (by omega)]
        rw [hw, hsum, zero_add]
    · intro p hp
      have h1 : (m + 1) * outCh = m * outCh + outCh := by ring
      rw [hih.2 p (by omega)]
      exact writeFrame_of_notin (Or.inr (by omega))


/-- C6.  When the inner channel count differs from the output channel
count, a `ChannelConverter::write_samples` call in which the inner
source yields `in_len` samples (a whole number of frames) returns
exactly `in_len * out_channels / in_channels`, and every channel of each
produced output frame holds the mean of the corresponding input frame:
the `i32` sum of its channels, divided by `in_channels` with truncation
(Rust `/` on `i32`), cast to `i16`. -/
theorem channel_converter_averages_frames {σ : Type} (ops : SourceOps σ) (outCh : ℕ)
    (st : σ) (outBuffer : ℕ → ℤ) (B : ℕ)
    (hne : ops.channels ≠ outCh) (hch : 0 < ops.channels) (hout : 0 < outCh)
    (hdvd : ops.channels ∣ (ops.write st (B / outCh * ops.channels)).1.length) :
    (ChannelConverter.writeSamples ops outCh st outBuffer B).2.1 =
      (ops.write st (B / outCh * ops.channels)).1.length * outCh / ops.channels ∧
    ∀ f, f < (ops.write st (B / outCh * ops.channels)).1.length / ops.channels →
      ∀ c, c < outCh →
        (ChannelConverter.writeSamples ops outCh st outBuffer B).1 (f * outCh + c) =
          i16Wrap (Int.tdiv
            (frameSum (ops.write st (B / outCh * ops.channels)).1 f ops.channels)
            (ops.channels : ℤ)) := by
  set ch := ops.channels with hchdef
  set l := (ops.write st (B / outCh * ch)).1 with hldef
  have hlen2 : l.length / ch * ch = l.length := Nat.div_mul_cancel hdvd
  unfold ChannelConverter.writeSamples
  rw [if_neg hne]
  by_cases hlt : ch < outCh
  · rw [if_pos hlt]
    refine ⟨rfl, ?_⟩
    intro f hf c hc
    have hspec := chanUpLoop_spec ch outCh hch hlt l (l.length / ch)
      (overwritePrefix outBuffer l)
      (le_of_eq hlen2)
      (by
        intro p hp
        rw [hlen2] at hp
        unfold overwritePrefix
        rw [if_pos hp])
    have := hspec.1 f hf c hc
    rw [hlen2] at this
    exact this
  · rw [if_neg hlt]
    refine ⟨rfl, ?_⟩
    intro f hf c hc
    have hspec := chanDownLoop_spec ch outCh hch (l.length / ch) l
      ((Nat.mul_comm _ _).trans hlen2).symm 0 outBuffer
    have := hspec.1 f hf c hc
    rw [Nat.zero_mul, Nat.zero_add] at this
    exact this


/-- Witness for C6: the crate's own `channels_3_1` test input, 3 channels
down to 1, input `[1 … 9]`, means `[2, 5, 8]`. -/
theorem channel_converter_averages_frames_witness :
    ((listSourceOps 3 30 [1, 2, 3, 4, 5, 6, 7, 8, 9]).channels ≠ 1 ∧
      (listSourceOps 3 30 [1, 2, 3, 4, 5, 6, 7, 8, 9]).channels ∣
        ((listSourceOps 3 30 [1, 2, 3, 4, 5, 6, 7, 8, 9]).write 0
          (3 / 1 * (listSourceOps 3 30 [1, 2, 3, 4, 5, 6, 7, 8, 9]).channels)).1.length) ∧
    ((ChannelConverter.writeSamples (listSourceOps 3 30 [1, 2, 3, 4, 5, 6, 7, 8, 9]) 1 0
        (fun _ => 0) 3).2.1 =
      ((listSourceOps 3 30 [1, 2, 3, 4, 5, 6, 7, 8, 9]).write 0
          (3 / 1 * (listSourceOps 3 30 [1, 2, 3, 4, 5, 6, 7, 8, 9]).channels)).1.length * 1 /
        (listSourceOps 3 30 [1, 2, 3, 4, 5, 6, 7, 8, 9]).channels ∧
      ∀ f, f < ((listSourceOps 3 30 [1, 2, 3, 4, 5, 6, 7, 8, 9]).write 0
          (3 / 1 * (listSourceOps 3 30 [1, 2, 3, 4, 5, 6, 7, 8, 9]).channels)).1.length /
            (listSourceOps 3 30 [1, 2, 3, 4, 5, 6, 7, 8, 9]).channels →
        ∀ c, c < 1 →
          (ChannelConverter.writeSamples (listSourceOps 3 30 [1, 2, 3, 4, 5, 6, 7, 8, 9]) 1 0
              (fun _ => 0) 3).1 (f * 1 + c) =
            i16Wrap (Int.tdiv
              (frameSum ((listSourceOps 3 30 [1, 2, 3, 4, 5, 6, 7, 8, 9]).write 0
                  (3 / 1 * (listSourceOps 3 30 [1, 2, 3, 4, 5, 6, 7, 8, 9]).channels)).1 f
                (listSourceOps 3 30 [1, 2, 3, 4, 5, 6, 7, 8, 9]).channels)
              ((listSourceOps 3 30 [1, 2, 3, 4, 5, 6, 7, 8, 9]).channels : ℤ))) :=
  ⟨⟨by with_unfolding_all decide, by with_unfolding_all decide⟩,
    channel_converter_averages_frames (listSourceOps 3 30 [1, 2, 3, 4, 5, 6, 7, 8, 9]) 1 0
      (fun _ => 0) 3 (by with_unfolding_all decide) (by with_unfolding_all decide)
      (by with_unfolding_all decide) (by with_unfolding_all decide)⟩

/-! ## Lemmas about the SampleRateConverter's cycle discipline -/

/-- An exact multiple needs no rounding up. -/
theorem divUp_mul_self (a b : ℕ) (hb : 0 < b) : divUp (a * b) b = a := by
  unfold divUp
  rw [Nat.mul_div_cancel _ hb, Nat.mul_mod_left]
  simp

/-- Overwriting a slice of a buffer list keeps its length. -/
theorem listOverwrite_length (l : List ℤ) (s : ℕ) (w : List ℤ) :
    (listOverwrite l s w).length = l.length := by
  unfold listOverwrite
  simp

/-- The cycle refill over an inexhaustible source, field by field: the
carry buffer keeps its size, a full cycle is read (advancing the inner
source by `in_len` samples) and the cursor rewinds. -/
theorem srcRefill_fields (ch rate : ℕ) (f : ℕ → ℤ) (st : SRC ℕ) :
    (srcRefill (funSource ch rate f) st).len = st.inBuffer.length - ch ∧
    (srcRefill (funSource ch rate f) st).iter = 0 ∧
    (srcRefill (funSource ch rate f) st).inner = st.inner + (st.inBuffer.length - ch) ∧
    (srcRefill (funSource ch rate f) st).inBuffer.length = st.inBuffer.length ∧
    (srcRefill (funSource ch rate f) st).outLen = st.outLen := by
  unfold srcRefill funSource
  simp [listOverwrite_length]

/-- The conversion loop preserves `srcInv` and produces exactly one
frame per loop pass: over an inexhaustible inner source the end-of-source
early return never fires and `curr_out_len` is always the full
`out_len`. -/
theorem srcLoop_inv (ch rate : ℕ) (f : ℕ → ℤ) (interp : List ℤ → ℕ → ℕ → ℤ)
    (inLen outLen : ℕ) (hch : 0 < ch) (hinLen : 0 < inLen)
    (hdvd : ch ∣ outLen) (hchle : ch ≤ outLen) :
    ∀ (frames : ℕ) (st : SRC ℕ) (produced : List ℤ) (T : ℕ),
      srcInv inLen outLen ch st T →
      (srcLoop (funSource ch rate f) interp st produced frames).1.length
          = produced.length + frames * ch ∧
      srcInv inLen outLen ch (srcLoop (funSource ch rate f) interp st produced frames).2
        (T + frames * ch) := by
  intro frames
  induction frames with
  | zero =>
    intro st produced T hinv
    simp only [srcLoop]
    exact ⟨by omega, by simpa using hinv⟩
  | succ frames ih =>
    intro st produced T hinv
    obtain ⟨hbuf, hout, hlen, hdvditer, hiterle, hpos, q, hq, hT⟩ := hinv
    simp only [srcLoop]
    have hchans : (funSource ch rate f).channels = ch := rfl
    rw [hchans]
    have hinLen2 : st.inBuffer.length - ch = inLen := by omega
    rw [hinLen2, hlen, hout]
    have hcurr : divUp (outLen * inLen) inLen / ch * ch = outLen := by
      rw [divUp_mul_self _ _ hinLen, Nat.div_mul_cancel hdvd]
    rw [hcurr]
    rw [if_neg (by omega)]
    obtain ⟨hrlen, hriter, hrinner, hrbuf, hrout⟩ := srcRefill_fields ch rate f st
    by_cases hiter : st.iter ≥ outLen
    · rw [if_pos hiter]
      have hitereq : st.iter = outLen := by omega
      obtain ⟨h1, h2⟩ := ih
        { srcRefill (funSource ch rate f) st with
            iter := (srcRefill (funSource ch rate f) st).iter + ch }
        (produced ++ (List.range ch).map (fun c =>
          interp (srcRefill (funSource ch rate f) st).inBuffer
            (srcRefill (funSource ch rate f) st).iter c))
        (T + ch)
        (by
          refine ⟨by simpa [hrbuf], by simpa [hrout], by simpa [hrlen, hrbuf],
            by simpa [hriter], by simpa [hriter] using hchle, Or.inr (by simp [hriter]; omega),
            q + 1, ?_, ?_⟩
          · show (srcRefill (funSource ch rate f) st).inner = (q + 1 + 1) * inLen + ch
            rw [hrinner, hinLen2, hq]
            ring
          · show T + ch = (q + 1) * outLen + ((srcRefill (funSource ch rate f) st).iter + ch)
            rw [hriter, hT, hitereq]
            ring)
      refine ⟨?_, ?_⟩
      · rw [h1]
        simp only [List.length_append, List.length_map, List.length_range, Nat.succ_mul]
        omega
      · have harith : T + (frames + 1) * ch = T + ch + frames * ch := by ring
        rw [harith]
        exact h2
    · rw [if_neg hiter]
      obtain ⟨h1, h2⟩ := ih
        { st with iter := st.iter + ch }
        (produced ++ (List.range ch).map (fun c => interp st.inBuffer st.iter c))
        (T + ch)
        (by
          refine ⟨hbuf, hout, hlen, by simpa using Dvd.dvd.add hdvditer dvd_rfl, ?_,
            Or.inr (by simp; omega), q, hq, ?_⟩
          · show st.iter + ch ≤ outLen
            obtain ⟨a, ha⟩ := hdvditer
            obtain ⟨b, hb⟩ := hdvd
            have hab : a < b := by
              by_contra hab
              push_neg at hab
              refine hiter ?_
              rw [ha, hb]
              exact Nat.mul_le_mul_left ch hab
            calc st.iter + ch = ch * a + ch := by rw [ha]
              _ = ch * (a + 1) := by ring
              _ ≤ ch * b := Nat.mul_le_mul_left ch (by omega)
              _ = outLen := hb.symm
          · show T + ch = q * outLen + (st.iter + ch)
            rw [hT]
            ring)
      refine ⟨?_, ?_⟩
      · rw [h1]
        simp only [List.length_append, List.length_map, List.length_range, Nat.succ_mul]
        omega
      · have harith : T + (frames + 1) * ch = T + ch + frames * ch := by ring
        rw [harith]
        exact h2


/-- The `div_up` helper on an exact multiple. -/
theorem divUp_of_dvd {b B : ℕ} (hb : 0 < b) (h : b ∣ B) : divUp B b = B / b := by
  unfold divUp
  obtain ⟨c, rfl⟩ := h
  rw [Nat.mul_mod_right]
  simp

/-- A freshly built converter satisfies the invariant with zero output:
construction reads `in_len + channels` samples ahead (one full cycle
plus the boundary frame). -/
theorem srcNew_inv (ch inRate outRate : ℕ) (f : ℕ → ℤ) (hch : 0 < ch) :
    srcInv (inRate / Nat.gcd inRate outRate * ch) (outRate / Nat.gcd inRate outRate * ch) ch
      (srcNew (funSource ch inRate f) outRate 0) 0 := by
  unfold srcInv
  refine ⟨?_, ?_, ?_, ?_, ?_, Or.inl rfl, 0, ?_, ?_⟩ <;>
    simp [srcNew, srcReset, funSource, listOverwrite_length]

/-- One `write_samples` call of any frame-aligned size over an
inexhaustible inner source fills the whole buffer and preserves the
invariant. -/
theorem srcWrite_inv (ch inRate outRate : ℕ) (f : ℕ → ℤ) (interp : List ℤ → ℕ → ℕ → ℤ)
    (inLen outLen : ℕ) (hch : 0 < ch) (hinLen : 0 < inLen)
    (hdvd : ch ∣ outLen) (hchle : ch ≤ outLen) (hne : outRate ≠ inRate)
    (st : SRC ℕ) (T B : ℕ) (hB : ch ∣ B) (hinv : srcInv inLen outLen ch st T) :
    (srcWrite (funSource ch inRate f) interp outRate st B).1.length = B ∧
      srcInv inLen outLen ch (srcWrite (funSource ch inRate f) interp outRate st B).2 (T + B) := by
  unfold srcWrite
  rw [if_neg (by simpa [funSource] using hne)]
  have hchans : (funSource ch inRate f).channels = ch := rfl
  rw [hchans, divUp_of_dvd hch hB]
  have := srcLoop_inv ch inRate f interp inLen outLen hch hinLen hdvd hchle (B / ch) st [] T hinv
  rw [Nat.div_mul_cancel hB] at this
  simpa using this

/-- Any sequence of frame-aligned `write_samples` calls produces exactly
the requested total and preserves the invariant. -/
theorem srcWriteSeq_inv (ch inRate outRate : ℕ) (f : ℕ → ℤ) (interp : List ℤ → ℕ → ℕ → ℤ)
    (inLen outLen : ℕ) (hch : 0 < ch) (hinLen : 0 < inLen)
    (hdvd : ch ∣ outLen) (hchle : ch ≤ outLen) (hne : outRate ≠ inRate) :
    ∀ (sizes : List ℕ), (∀ B ∈ sizes, ch ∣ B) → ∀ (st : SRC ℕ) (T : ℕ),
      srcInv inLen outLen ch st T →
      (srcWriteSeq (funSource ch inRate f) interp outRate st sizes).1 = sizes.sum ∧
        srcInv inLen outLen ch
          (srcWriteSeq (funSource ch inRate f) interp outRate st sizes).2 (T + sizes.sum) := by
  intro sizes
  induction sizes with
  | nil =>
    intro _ st T hinv
    simp only [srcWriteSeq]
    exact ⟨rfl, by simpa using hinv⟩
  | cons B rest ihr =>
    intro hsz st T hinv
    simp only [srcWriteSeq]
    obtain ⟨h1, h2⟩ := srcWrite_inv ch inRate outRate f interp inLen outLen hch hinLen hdvd
      hchle hne st T B (hsz B (by simp)) hinv
    obtain ⟨h3, h4⟩ := ihr (fun x hx => hsz x (by simp [hx]))
      (srcWrite (funSource ch inRate f) interp outRate st B).2 (T + B) h2
    refine ⟨?_, ?_⟩
    · rw [h1, h3, List.sum_cons]
    · rw [List.sum_cons, show T + (B + rest.sum) = T + B + rest.sum by ring]
      exact h4


/-- C3 (amended).  For every inexhaustible inner source, every
interpolation function, every pair of distinct positive rates and every
partition of the output into frame-aligned `write_samples` buffers
totalling `k ≥ 1` whole cycles (`k * out_rate/g * channels` samples,
`g = gcd`), the converter has produced exactly `k * (out_rate/g) *
channels` output samples and has READ exactly `k * (in_rate/g) *
channels + channels` input samples — the `k` whole cycles plus the one
lookahead frame carried at each cycle boundary; the fully converted
count is thus exactly `k * (in_rate/g) * channels`, with no drift, for
any buffer partition. -/
theorem src_cycle_exact_counts (f : ℕ → ℤ) (interp : List ℤ → ℕ → ℕ → ℤ)
    (inRate outRate ch : ℕ) (hin : 0 < inRate) (hout : 0 < outRate) (hch : 0 < ch)
    (hne : outRate ≠ inRate) (sizes : List ℕ) (hsizes : ∀ B ∈ sizes, ch ∣ B)
    (k : ℕ) (hk : 1 ≤ k)
    (hsum : sizes.sum = k * (outRate / Nat.gcd inRate outRate * ch)) :
    (srcWriteSeq (funSource ch inRate f) interp outRate
        (srcNew (funSource ch inRate f) outRate 0) sizes).1
      = k * (outRate / Nat.gcd inRate outRate * ch) ∧
    (srcWriteSeq (funSource ch inRate f) interp outRate
        (srcNew (funSource ch inRate f) outRate 0) sizes).2.inner
      = k * (inRate / Nat.gcd inRate outRate * ch) + ch := by
  have hg : 0 < Nat.gcd inRate outRate := Nat.gcd_pos_of_pos_left _ hin
  have hinq : 0 < inRate / Nat.gcd inRate outRate :=
    Nat.div_pos (Nat.le_of_dvd hin (Nat.gcd_dvd_left _ _)) hg
  have houtq : 0 < outRate / Nat.gcd inRate outRate :=
    Nat.div_pos (Nat.le_of_dvd hout (Nat.gcd_dvd_right _ _)) hg
  have hinLen : 0 < inRate / Nat.gcd inRate outRate * ch := Nat.mul_pos hinq hch
  have houtLen : 0 < outRate / Nat.gcd inRate outRate * ch := Nat.mul_pos houtq hch
  have hdvdo : ch ∣ outRate / Nat.gcd inRate outRate * ch := dvd_mul_left ch _
  have hchle : ch ≤ outRate / Nat.gcd inRate outRate * ch := Nat.le_mul_of_pos_left ch houtq
  obtain ⟨h1, h2⟩ := srcWriteSeq_inv ch inRate outRate f interp
    (inRate / Nat.gcd inRate outRate * ch) (outRate / Nat.gcd inRate outRate * ch)
    hch hinLen hdvdo hchle hne sizes hsizes
    (srcNew (funSource ch inRate f) outRate 0) 0 (srcNew_inv ch inRate outRate f hch)
  refine ⟨h1.trans hsum, ?_⟩
  obtain ⟨hbuf, houtf, hlen, hdvi, hile, hpos, q, hq, hT⟩ := h2
  rw [hsum] at hT
  rw [Nat.zero_add] at hT
  set st2 := (srcWriteSeq (funSource ch inRate f) interp outRate
    (srcNew (funSource ch inRate f) outRate 0) sizes).2 with hst2
  have hiterpos : 0 < st2.iter := by
    rcases hpos with hz | hp
    · exfalso
      rw [hsum] at hz
      have : k * (outRate / Nat.gcd inRate outRate * ch) ≠ 0 :=
        Nat.mul_ne_zero (by omega) (by omega)
      omega
    · exact hp
  have hqk : q + 1 = k := by
    have hlt : q * (outRate / Nat.gcd inRate outRate * ch) <
        k * (outRate / Nat.gcd inRate outRate * ch) := by omega
    have hle : k * (outRate / Nat.gcd inRate outRate * ch) ≤
        (q + 1) * (outRate / Nat.gcd inRate outRate * ch) := by
      have : (q + 1) * (outRate / Nat.gcd inRate outRate * ch) =
          q * (outRate / Nat.gcd inRate outRate * ch) +
            (outRate / Nat.gcd inRate outRate * ch) := by ring
      omega
    have h5 : q < k := Nat.lt_of_mul_lt_mul_right hlt
    have h6 : k ≤ q + 1 := Nat.le_of_mul_le_mul_right hle houtLen
    omega
  rw [hq, hqk]


/-- C3 counterexample.  As stated, the claim's consumed count is off by
the lookahead frame: converting 10 Hz to 30 Hz mono (`in_len = 1`,
`out_len = 3`), after one whole cycle (3 output samples) the converter
has read 2 input samples, not `1 * (10/gcd) * 1 = 1` — the extra one is
the carried boundary frame. -/
theorem src_cycle_reads_one_extra_frame :
    (srcWrite (funSource 1 10 (fun _ => 0)) (fun _ _ _ => 0) 30
        (srcNew (funSource 1 10 (fun _ => 0)) 30 0) 3).1.length = 3 ∧
    (srcWrite (funSource 1 10 (fun _ => 0)) (fun _ _ _ => 0) 30
        (srcNew (funSource 1 10 (fun _ => 0)) 30 0) 3).2.inner = 2 ∧
    (2 : ℕ) ≠ 1 * (10 / Nat.gcd 10 30 * 1) := by
  with_unfolding_all decide

/-- Witness for C3's amended theorem: 10 Hz to 30 Hz mono over two
3-sample buffers, `k = 2` cycles: 6 samples out, `2*1 + 1` samples
read. -/
theorem src_cycle_exact_counts_witness :
    ((∀ B ∈ [3, 3], 1 ∣ B) ∧ [3, 3].sum = 2 * (30 / Nat.gcd 10 30 * 1)) ∧
    ((srcWriteSeq (funSource 1 10 (fun _ => 0)) (fun _ _ _ => 0) 30
        (srcNew (funSource 1 10 (fun _ => 0)) 30 0) [3, 3]).1
      = 2 * (30 / Nat.gcd 10 30 * 1) ∧
    (srcWriteSeq (funSource 1 10 (fun _ => 0)) (fun _ _ _ => 0) 30
        (srcNew (funSource 1 10 (fun _ => 0)) 30 0) [3, 3]).2.inner
      = 2 * (10 / Nat.gcd 10 30 * 1) + 1) :=
  ⟨⟨by decide, by decide⟩,
    src_cycle_exact_counts (fun _ => 0) (fun _ _ _ => 0) 10 30 1 (by decide) (by decide)
      (by decide) (by decide) [3, 3] (by decide) 2 (by decide) (by decide)⟩

end AudioEngine
